/-
Verification of the retrieval-and-answer orchestration core of the
`rag_avancado` repository against its natural-language specification.

The Python sources are shallowly embedded as executable Lean definitions:

* `SHA256`    — the `hashlib.sha256(...).hexdigest()` digest used by
  `CacheManager._hash_content` (src/cache_manager.py), modelled bit-for-bit
  on lists of bytes (`Nat` mod 2^8 / 2^32).
* `CacheM`    — `CacheManager.get_response_cache` / `set_response_cache`
  (src/cache_manager.py), with diskcache's `expire=86400` eviction and the
  24-hour timestamp check made explicit; time is a rational number of seconds.
* `Retriever` — `AdvancedRetriever._combine_results`, `hybrid_search`,
  `rerank_results`, `query_expansion` (src/advanced_retriever.py); Python
  floats are modelled as rationals, Python's insertion-ordered `dict` as an
  association list with in-place update, and `list.sort(reverse=True)` as a
  stable descending insertion sort.
* `RagStream` — `StreamingRAGSystem.query_stream` (src/rag_streaming.py),
  emitting the same ordered event sequence; the external vector store, the
  BM25 library scorer, the cross-encoder model and the generation backend
  are parameters, as §6 of the spec treats them as external collaborators.
* `AgentM`    — `AutonomousAgent.process_stream` and `ToolRegistry`
  (src/autonomous_agent.py, src/agent_tools.py); the planner's parsed JSON
  decisions and the tool executors are parameters, a raised exception from
  the generation backend is the `none` case of the planner.
-/
import Mathlib

set_option linter.unusedVariables false
set_option linter.unreachableTactic false
set_option linter.unusedTactic false
set_option maxRecDepth 8000
set_option maxHeartbeats 1000000

namespace SHA256

/-- Truncation to a 32-bit word, written explicitly as `% 2^32`. -/
def w32 (n : Nat) : Nat := n % 4294967296

/-- Right-rotation of a 32-bit word by `n` bits. -/
def rotr (n : Nat) (x : Nat) : Nat := w32 ((x >>> n) ||| (x <<< (32 - n)))

def bsig0 (x : Nat) : Nat := (rotr 2 x) ^^^ (rotr 13 x) ^^^ (rotr 22 x)

def bsig1 (x : Nat) : Nat := (rotr 6 x) ^^^ (rotr 11 x) ^^^ (rotr 25 x)

def ssig0 (x : Nat) : Nat := (rotr 7 x) ^^^ (rotr 18 x) ^^^ (x >>> 3)

def ssig1 (x : Nat) : Nat := (rotr 17 x) ^^^ (rotr 19 x) ^^^ (x >>> 10)

/-- `Ch(x,y,z)`; 32-bit complement written as xor with `2^32 - 1`. -/
def ch (x y z : Nat) : Nat := (x &&& y) ^^^ ((x ^^^ 4294967295) &&& z)

def maj (x y z : Nat) : Nat := (x &&& y) ^^^ (x &&& z) ^^^ (y &&& z)

/-- The 64 round constants (fractional cube roots of the first 64 primes). -/
def K : List Nat :=
  [1116352408, 1899447441, 3049323471, 3921009573, 961987163, 1508970993,
   2453635748, 2870763221, 3624381080, 310598401, 607225278, 1426881987,
   1925078388, 2162078206, 2614888103, 3248222580, 3835390401, 4022224774,
   264347078, 604807628, 770255983, 1249150122, 1555081692, 1996064986,
   2554220882, 2821834349, 2952996808, 3210313671, 3336571891, 3584528711,
   113926993, 338241895, 666307205, 773529912, 1294757372, 1396182291,
   1695183700, 1986661051, 2177026350, 2456956037, 2730485921, 2820302411,
   3259730800, 3345764771, 3516065817, 3600352804, 4094571909, 275423344,
   430227734, 506948616, 659060556, 883997877, 958139571, 1322822218,
   1537002063, 1747873779, 1955562222, 2024104815, 2227730452, 2361852424,
   2428436474, 2756734187, 3204031479, 3329325298]

/-- The initial hash state (fractional square roots of the first 8 primes). -/
def H0 : List Nat :=
  [1779033703, 3144134277, 1013904242, 2773480762, 1359893119, 2600822924,
   528734635, 1541459225]

/-- Big-endian 8-byte encoding of a length-in-bits value. -/
def beBytes8 (n : Nat) : List Nat :=
  [(n >>> 56) % 256, (n >>> 48) % 256, (n >>> 40) % 256, (n >>> 32) % 256,
   (n >>> 24) % 256, (n >>> 16) % 256, (n >>> 8) % 256, n % 256]

/-- SHA-256 padding: `0x80`, zeros to 56 mod 64, big-endian bit length. -/
def pad (msg : List Nat) : List Nat :=
  msg ++ [128] ++ List.replicate ((119 - msg.length % 64) % 64) 0
      ++ beBytes8 (8 * msg.length)

/-- Pack bytes into big-endian 32-bit words. -/
def toWords : List Nat → List Nat
  | a :: b :: c :: d :: rest =>
      ((((a <<< 8) ||| b) <<< 8 ||| c) <<< 8 ||| d) :: toWords rest
  | _ => []

/-- Split a word list into 16-word blocks (padded input is always a
multiple of 16 words, so the fallback only matches the empty list). -/
def toBlocks : List Nat → List (List Nat)
  | w0 :: w1 :: w2 :: w3 :: w4 :: w5 :: w6 :: w7 ::
    w8 :: w9 :: w10 :: w11 :: w12 :: w13 :: w14 :: w15 :: rest =>
      [w0, w1, w2, w3, w4, w5, w6, w7,
       w8, w9, w10, w11, w12, w13, w14, w15] :: toBlocks rest
  | _ => []

/-- Extend a 16-word block to the 64-word message schedule. -/
def schedule (block : List Nat) : List Nat :=
  (List.range 48).foldl
    (fun ws _ =>
      let n := ws.length
      let w16 := ws.getD (n - 16) 0
      let w15 := ws.getD (n - 15) 0
      let w7 := ws.getD (n - 7) 0
      let w2 := ws.getD (n - 2) 0
      ws ++ [w32 (w16 + ssig0 w15 + w7 + ssig1 w2)])
    block

/-- One SHA-256 compression round over the 8-word state. -/
def round (ws : List Nat) (st : List Nat) (i : Nat) : List Nat :=
  match st with
  | [a, b, c, d, e, f, g, h] =>
      let t1 := w32 (h + bsig1 e + ch e f g + K.getD i 0 + ws.getD i 0)
      let t2 := w32 (bsig0 a + maj a b c)
      [w32 (t1 + t2), a, b, c, w32 (d + t1), e, f, g]
  | other => other

/-- Process one block: 64 rounds then add the previous state. -/
def compress (hs : List Nat) (block : List Nat) : List Nat :=
  let ws := schedule block
  let fin := (List.range 64).foldl (round ws) hs
  List.zipWith (fun x y => w32 (x + y)) hs fin

/-- The eight digest words of a byte message. -/
def digestWords (msg : List Nat) : List Nat :=
  (toBlocks (toWords (pad msg))).foldl compress H0

def hexChar (n : Nat) : Char :=
  if n < 10 then Char.ofNat (48 + n) else Char.ofNat (87 + n)

def hexWord (w : Nat) : List Char :=
  [hexChar ((w >>> 28) % 16), hexChar ((w >>> 24) % 16),
   hexChar ((w >>> 20) % 16), hexChar ((w >>> 16) % 16),
   hexChar ((w >>> 12) % 16), hexChar ((w >>> 8) % 16),
   hexChar ((w >>> 4) % 16), hexChar (w % 16)]

/-- Lowercase hex digest string, as Python's `hexdigest()`. -/
def hexdigest (msg : List Nat) : String :=
  String.mk ((digestWords msg).foldr (fun w acc => hexWord w ++ acc) [])

/-- UTF-8 encoding of one character, as Python's `str.encode()`. -/
def utf8Char (c : Char) : List Nat :=
  let n := c.toNat
  if n < 128 then [n]
  else if n < 2048 then [192 + n / 64, 128 + n % 64]
  else if n < 65536 then [224 + n / 4096, 128 + (n / 64) % 64, 128 + n % 64]
  else [240 + n / 262144, 128 + (n / 4096) % 64, 128 + (n / 64) % 64,
        128 + n % 64]

/-- UTF-8 encoding of a string as a byte list. -/
def encode (s : String) : List Nat :=
  (s.data.map utf8Char).foldr (· ++ ·) []

end SHA256

/-- A `langchain` `Document`: `page_content` plus scalar metadata. The core
never mutates documents, so plain structure equality is adequate. -/
structure Doc where
  content : String
  metadata : List (String × String)
deriving DecidableEq

/-- One entry of a `sources` payload: excerpt, metadata, score. -/
structure Src where
  content : String
  metadata : List (String × String)
  score : ℚ
deriving DecidableEq

/-- Insertion-ordered string-keyed dictionary assignment `d[k] = v`:
replaces in place when the key exists, appends otherwise, exactly as a
Python `dict`. -/
def dictSet {β : Type} : List (String × β) → String → β → List (String × β)
  | [], k, v => [(k, v)]
  | (k', v') :: rest, k, v =>
      if k' = k then (k, v) :: rest else (k', v') :: dictSet rest k v

/-- `k in d` for the insertion-ordered dictionary model. -/
def containsKey {β : Type} : List (String × β) → String → Bool
  | [], _ => false
  | (k', _) :: rest, k => if k' = k then true else containsKey rest k

namespace CacheM

/-- `question.lower().strip()` as performed by both
`get_response_cache` and `set_response_cache`. -/
def normalizeQuestion (q : String) : String := q.toLower.trim

/-- `CacheManager._hash_content`: `hashlib.sha256(content.encode()).hexdigest()`. -/
def hashContent (content : String) : String :=
  SHA256.hexdigest (SHA256.encode content)

/-- The key under which a question's answer is cached. -/
def cacheKey (question : String) : String :=
  hashContent (normalizeQuestion question)

/-- The response dict cached by `StreamingRAGSystem.query_stream`. -/
structure CachedResponse where
  answer : String
  confidence : ℚ
  method : String
  sources : List Src
deriving DecidableEq

/-- The `cache_data` record stored by `set_response_cache`; `timestamp`
is `datetime.now()` in seconds, kept as a rational. -/
structure CacheEntry where
  response : CachedResponse
  timestamp : ℚ
  tokens : Nat
deriving DecidableEq

/-- The `stats` diskcache counters touched by the response-cache paths. -/
structure CacheStats where
  response_hits : Nat
  response_misses : Nat
  total_tokens_saved : Nat
  estimated_cost_saved : ℚ
deriving DecidableEq

/-- The response store plus its counters. -/
structure CacheState where
  store : List (String × CacheEntry)
  stats : CacheStats
deriving DecidableEq

/-- Raw keyed lookup in the response store. -/
def lookupStore : List (String × CacheEntry) → String → Option CacheEntry
  | [], _ => none
  | (k, e) :: rest, key => if k = key then some e else lookupStore rest key

/-- diskcache lazily treats an entry written with `expire=86400` as absent
once 86400 seconds have elapsed since the write. -/
def liveEntry (now : ℚ) : Option CacheEntry → Option CacheEntry
  | some e => if now < e.timestamp + 86400 then some e else none
  | none => none

/-- `CacheManager.get_response_cache`: hash the normalized question, read
the store, honour the 24-hour window, and update hit/miss counters. -/
def getResponseCache (question : String) (now : ℚ) (st : CacheState) :
    Option CachedResponse × CacheState :=
  match liveEntry now (lookupStore st.store (cacheKey question)) with
  | some e =>
      if now - e.timestamp < 24 * 3600 then
        (some e.response,
         { st with stats :=
            { st.stats with
              response_hits := st.stats.response_hits + 1,
              estimated_cost_saved := st.stats.estimated_cost_saved + 1/100,
              total_tokens_saved := st.stats.total_tokens_saved + e.tokens } })
      else
        (none,
         { st with stats :=
            { st.stats with
              response_misses := st.stats.response_misses + 1 } })
  | none =>
      (none,
       { st with stats :=
          { st.stats with
            response_misses := st.stats.response_misses + 1 } })

/-- `CacheManager.set_response_cache` (default `tokens_used=500`): store
`{response, timestamp, tokens}` under the hashed normalized question with
`expire=86400`. -/
def setResponseCache (question : String) (response : CachedResponse)
    (tokens : Nat) (now : ℚ) (st : CacheState) : CacheState :=
  { st with store := dictSet st.store (cacheKey question) ⟨response, now, tokens⟩ }

end CacheM

namespace Retriever

/-- Deduplication fingerprint: `doc.page_content[:100]`. -/
def fingerprint (d : Doc) : String := d.content.take 100

/-- Stable-descending insertion: the new element goes after every element
whose score is at least as large, matching Python's stable
`list.sort(key=score, reverse=True)` on ties. -/
def insertDesc {α : Type} (x : α × ℚ) : List (α × ℚ) → List (α × ℚ)
  | [] => [x]
  | y :: ys => if x.2 ≤ y.2 then y :: insertDesc x ys else x :: y :: ys

/-- Stable descending sort by score, as `list.sort(key=..., reverse=True)`. -/
def sortDesc {α : Type} (l : List (α × ℚ)) : List (α × ℚ) :=
  l.foldl (fun acc x => insertDesc x acc) []

/-- The inner `normalize` of `_combine_results`: min-max scaling with the
range forced to 1 when all scores are equal. -/
def normalizeScores (results : List (Doc × ℚ)) : List (Doc × ℚ) :=
  match results with
  | [] => []
  | r :: rs =>
      let scores := (r :: rs).map Prod.snd
      let maxScore := scores.foldl max r.2
      let minScore := scores.foldl min r.2
      let range := if maxScore = minScore then 1 else maxScore - minScore
      (r :: rs).map (fun p => (p.1, (p.2 - minScore) / range))

/-- `combined_dict[doc_id]['score'] += delta`, updating in place. -/
def addScore : List (String × (Doc × ℚ)) → String → ℚ → List (String × (Doc × ℚ))
  | [], _, _ => []
  | (k', (d, s)) :: rest, k, delta =>
      if k' = k then (k', (d, s + delta)) :: rest
      else (k', (d, s)) :: addScore rest k delta

/-- `doc.metadata.get(k) == v` over all filter pairs. -/
def matchesFilter (fm : List (String × String)) (d : Doc) : Bool :=
  fm.all (fun kv => d.metadata.lookup kv.1 == some kv.2)

/-- `AdvancedRetriever._combine_results`: normalize each list, merge by
fingerprint with weights `vw` and `1 - vw`, optionally filter by metadata,
then sort descending by combined score. -/
def combineResults (vectorResults keywordResults : List (Doc × ℚ)) (vw : ℚ)
    (fm : Option (List (String × String))) : List (Doc × ℚ) :=
  let vnorm := normalizeScores vectorResults
  let knorm := normalizeScores keywordResults
  let kw := 1 - vw
  let d1 := vnorm.foldl
    (fun acc p => dictSet acc (fingerprint p.1) (p.1, p.2 * vw)) []
  let d2 := knorm.foldl
    (fun acc p =>
      let key := fingerprint p.1
      if containsKey acc key then addScore acc key (p.2 * kw)
      else acc ++ [(key, (p.1, p.2 * kw))])
    d1
  let d3 := match fm with
    | some f => if f = [] then d2 else d2.filter (fun kv => matchesFilter f kv.2.1)
    | none => d2
  sortDesc (d3.map Prod.snd)

/-- `AdvancedRetriever.hybrid_search`: vector and BM25 search at `k*2`
(both external collaborators passed as functions), combine, truncate to `k`. -/
def hybridSearch (vsearch bsearch : String → Nat → List (Doc × ℚ))
    (query : String) (k : Nat) (vw : ℚ)
    (fm : Option (List (String × String))) : List (Doc × ℚ) :=
  (combineResults (vsearch query (k * 2)) (bsearch query (k * 2)) vw fm).take k

/-- The deterministic fallback of `rerank_results`:
`(doc, 1.0 - i * 0.1)` over `enumerate(documents[:top_k])`. -/
def fallbackScores : Nat → List Doc → List (Doc × ℚ)
  | _, [] => []
  | i, d :: ds => (d, 1 - (i : ℚ) * (1/10)) :: fallbackScores (i + 1) ds

/-- `AdvancedRetriever.rerank_results`: cross-encoder scores (an external
model, `none` when unavailable or failing) sorted descending and truncated,
else the decaying fallback. -/
def rerankResults (model : Option (String → Doc → ℚ)) (query : String)
    (docs : List Doc) (topK : Nat) : List (Doc × ℚ) :=
  match model with
  | none => fallbackScores 0 (docs.take topK)
  | some m => (sortDesc (docs.map (fun d => (d, m query d)))).take topK

/-- The enumeration markers stripped by `query_expansion`. -/
def enumMarks : List String := ["Variação 1:", "Variação 2:", "1.", "2.", "-"]

/-- One line of generation output: strip, then peel every matching
enumeration marker in order, restripping after each peel. -/
def cleanLine (line : String) : String :=
  enumMarks.foldl
    (fun clean p =>
      if clean.startsWith p then (clean.drop p.length).trim else clean)
    line.trim

/-- One candidate line of `query_expansion`:
`if clean and len(clean) > 10 and clean not in variations`. -/
def expandStep (vars : List String) (line : String) : List String :=
  let c := cleanLine line
  if c ≠ "" ∧ 10 < c.length ∧ c ∉ vars then vars ++ [c] else vars

/-- `AdvancedRetriever.query_expansion`; `resp` is the generation backend's
output, `none` when generation raised. -/
def queryExpansion (query : String) (resp : Option String) : List String :=
  match resp with
  | none => [query]
  | some response =>
      let lines := response.trim.splitOn "\n"
      ((lines.foldl expandStep [query])).take 3

end Retriever

namespace RagStream

/-- The event stream wire contract of `StreamingRAGSystem.query_stream`. -/
inductive RagEvent
  | statusEv (s : String)
  | chunk (s : String)
  | metadataEv (confidence : ℚ) (method : String)
  | sourcesEv (srcs : List Src)
deriving DecidableEq

/-- `for i in range(0, len(answer), 10): yield answer[i:i+10]` — the
10-character slicing used to replay a cached answer. -/
def sliceChunks : List Char → List String
  | [] => []
  | c0 :: c1 :: c2 :: c3 :: c4 :: c5 :: c6 :: c7 :: c8 :: c9 :: rest =>
      String.mk [c0, c1, c2, c3, c4, c5, c6, c7, c8, c9] :: sliceChunks rest
  | l => [String.mk l]

/-- The fixed zero-result answer of `query_stream` and `query_advanced`. -/
def noDocsMsg : String := "Não encontrei documentos relevantes."

/-- `"\n\n---\n\n".join(...)` of `RAGSystem._create_prompt`. -/
def joinSep (sep : String) : List String → String
  | [] => ""
  | [x] => x
  | x :: y :: xs => x ++ sep ++ joinSep sep (y :: xs)

/-- `[Documento i+1]\n{ctx}` blocks of `RAGSystem._create_prompt`. -/
def docBlocks : Nat → List String → List String
  | _, [] => []
  | i, c :: cs => ("[Documento " ++ toString (i + 1) ++ "]\n" ++ c) :: docBlocks (i + 1) cs

/-- `RAGSystem._create_prompt` (src/rag.py): the grounding prompt. -/
def createPrompt (query : String) (contexts : List String) : String :=
  let contextText := joinSep "\n\n---\n\n" (docBlocks 0 contexts)
  "Baseado APENAS nos documentos fornecidos abaixo, responda a pergunta do usuário.\n\nDOCUMENTOS:\n"
    ++ contextText
    ++ "\n\nPERGUNTA: " ++ query
    ++ "\n\nINSTRUÇÕES:\n- Use APENAS informações dos documentos fornecidos\n- Cite as fontes usando [Documento X]\n- Se a informação não estiver nos documentos, diga \"Não encontrei essa informação nos documentos fornecidos\"\n- Seja preciso e objetivo\n\nRESPOSTA:"

/-- One step of the `seen` deduplication dict:
`if doc_id not in seen or score > seen[doc_id][1]: seen[doc_id] = (doc, score)`. -/
def replaceIfBetter : List (String × (Doc × ℚ)) → String → (Doc × ℚ) →
    List (String × (Doc × ℚ))
  | [], _, _ => []
  | (k', q) :: rest, k, p =>
      if k' = k then (if q.2 < p.2 then (k', p) :: rest else (k', q) :: rest)
      else (k', q) :: replaceIfBetter rest k p

def dedupStep (seen : List (String × (Doc × ℚ))) (p : Doc × ℚ) :
    List (String × (Doc × ℚ)) :=
  let key := Retriever.fingerprint p.1
  if containsKey seen key then replaceIfBetter seen key p
  else seen ++ [(key, p)]

/-- The external collaborators of `StreamingRAGSystem` (§6 of the spec):
vector index, BM25 scorer, generation backend (expansion and synthesis),
optional cross-encoder. -/
structure RagParams where
  vsearch : String → Nat → List (Doc × ℚ)
  bsearch : String → Nat → List (Doc × ℚ)
  expandResp : Option String
  rerankModel : Option (String → Doc → ℚ)
  gen : String → List String

/-- The `seen`-dict deduplication, descending sort and `[:k*2]` truncation
of `query_stream`. -/
def topResultsOf (allResults : List (Doc × ℚ)) (k : Nat) : List (Doc × ℚ) :=
  (Retriever.sortDesc ((allResults.foldl dedupStep []).map Prod.snd)).take (k * 2)

/-- The final document selection of `query_stream`: rerank only when the
truncated shortlist exceeds `k`, else keep the fused order. -/
def selectFinal (rerankModel : Option (String → Doc → ℚ)) (question : String)
    (allResults : List (Doc × ℚ)) (k : Nat) (useRerank : Bool) : List (Doc × ℚ) :=
  let top := topResultsOf allResults k
  if useRerank ∧ k < top.length then
    Retriever.rerankResults rerankModel question (top.map Prod.fst) k
  else top.take k

/-- `StreamingRAGSystem.query_stream`: cache check, optional expansion,
per-variant search, fingerprint deduplication keeping the best score,
descending sort, truncation to `2k`, conditional rerank, synthesis, cache
write. Returns the ordered event list and the final cache state. -/
def queryStream (P : RagParams) (enableCache : Bool) (k : Nat)
    (question : String) (useHybrid useRerank useExpansion : Bool)
    (now : ℚ) (st0 : CacheM.CacheState) :
    List RagEvent × CacheM.CacheState :=
  let step :=
    if enableCache then CacheM.getResponseCache question now st0
    else (none, st0)
  match step with
  | (some cached, st1) =>
      ([RagEvent.statusEv "💾 Cache HIT! Resposta instantânea"]
        ++ (sliceChunks cached.answer.data).map RagEvent.chunk
        ++ [RagEvent.metadataEv cached.confidence "cached",
            RagEvent.sourcesEv cached.sources], st1)
  | (none, st1) =>
      let ev0 := [RagEvent.statusEv "🔍 Buscando documentos..."]
      let evExp := if useExpansion then [RagEvent.statusEv "🔄 Expandindo query..."] else []
      let queries :=
        if useExpansion then Retriever.queryExpansion question P.expandResp
        else [question]
      let allResults :=
        (queries.map (fun q =>
          if useHybrid then
            Retriever.hybridSearch P.vsearch P.bsearch q (k * 3) (7/10) none
          else P.vsearch q (k * 3))).flatten
      let topResults := topResultsOf allResults k
      let rerankTaken := useRerank ∧ k < topResults.length
      let evRk := if rerankTaken then [RagEvent.statusEv "🎯 Reranking..."] else []
      let finalPairs := selectFinal P.rerankModel question allResults k useRerank
      let finalDocs := finalPairs.map Prod.fst
      let finalScores := finalPairs.map Prod.snd
      if finalDocs = [] then
        (ev0 ++ evExp ++ evRk ++ [RagEvent.chunk noDocsMsg], st1)
      else
        let frags := P.gen (createPrompt question (finalDocs.map Doc.content))
        let fullAnswer := String.join frags
        let avg : ℚ := if finalScores = [] then 0 else finalScores.sum / finalScores.length
        let method := "streaming" ++ (if useHybrid then "_hybrid" else "")
          ++ (if useRerank then "_rerank" else "")
        let sources := finalPairs.map
          (fun p => Src.mk (p.1.content.take 200 ++ "...") p.1.metadata p.2)
        let events := ev0 ++ evExp ++ evRk
          ++ [RagEvent.statusEv "🤖 Gerando resposta...\n"]
          ++ frags.map RagEvent.chunk
          ++ [RagEvent.metadataEv avg method, RagEvent.sourcesEv sources]
        let st2 :=
          if enableCache then
            CacheM.setResponseCache question ⟨fullAnswer, avg, method, sources⟩ 500 now st1
          else st1
        (events, st2)

end RagStream

namespace AgentM

/-- A parsed planning decision (`AutonomousAgent._parse_json_response`):
the fields read from the planner's JSON, each with the code's defaults.
A parse failure yields `{needs_tool: false, is_complete: true}`, which is
`⟨none, none, none, false, true⟩` here. -/
structure Plan where
  reasoning : Option String
  tool : Option String
  tool_input : Option String
  needs_tool : Bool
  is_complete : Bool

/-- The fields of a tool's result dict that the agent loop reads:
`success`, `tool`, and (for `document_search`) `sources`. -/
structure ToolResult where
  success : Bool
  tool : String
  sources : List Src
deriving DecidableEq

/-- The events `AutonomousAgent.process_stream` yields, in order. -/
inductive AgentEvent
  | statusStart
  | reasoningEv (s : String)
  | toolStatus (step : Nat) (tool : String)
  | toolResultOk
  | toolResultErr
  | statusSynth
  | chunk (s : String)
  | metadataEv (toolsUsed : List String) (iterations : Nat)
  | sourcesEv (srcs : List Src)
deriving DecidableEq

/-- The five names registered by `ToolRegistry.__init__`;
`get_tool` returns `None` exactly for names outside this list. -/
def registryNames : List String :=
  ["document_search", "calculator", "datetime", "general_knowledge", "web_search"]

/-- `self.max_iterations = 3` from `AutonomousAgent.__init__`. -/
def max_iterations : Nat := 3

/-- The multi-step loop of `AutonomousAgent.process_stream`. `planner i`
is the parsed decision of iteration `i` (`none` when `llm.generate`
raised, which the enclosing `try/except` turns into a `break`); `exec`
models the registered tools, which never raise past their boundary.
Returns the accumulated `tool_results` and the loop's events. -/
def agentLoop (planner : Nat → Option Plan)
    (exec : String → String → ToolResult) (question : String) :
    Nat → Nat → List ToolResult → List ToolResult × List AgentEvent
  | 0, _, acc => (acc, [])
  | fuel + 1, i, acc =>
      match planner i with
      | none => (acc, [])
      | some plan =>
          let evR := match plan.reasoning with
            | some r => if i = 0 then [AgentEvent.reasoningEv r] else []
            | none => []
          if plan.is_complete || !plan.needs_tool then (acc, evR)
          else
            match plan.tool with
            | none => (acc, evR)
            | some t =>
                if t = "" then (acc, evR)
                else
                  let evS := evR ++ [AgentEvent.toolStatus (i + 1) t]
                  if t ∈ registryNames then
                    let r := exec t (plan.tool_input.getD question)
                    if r.success then
                      let next := agentLoop planner exec question fuel (i + 1) (acc ++ [r])
                      (next.1, evS ++ [AgentEvent.toolResultOk] ++ next.2)
                    else (acc ++ [r], evS ++ [AgentEvent.toolResultErr])
                  else
                    let next := agentLoop planner exec question fuel (i + 1) acc
                    (next.1, evS ++ next.2)

/-- `AutonomousAgent.process_stream`: opening status, the loop, the
synthesis status, the streamed final answer (`synthOut` is the generation
backend's fragment sequence), the metadata event, and a `sources` event
only when some `document_search` result contributed sources. -/
def processStream (planner : Nat → Option Plan)
    (exec : String → String → ToolResult) (synthOut : List String)
    (question : String) : List AgentEvent :=
  let L := agentLoop planner exec question max_iterations 0 []
  let sources := L.1.foldl
    (fun acc r => if r.tool = "document_search" then acc ++ r.sources else acc) []
  [AgentEvent.statusStart] ++ L.2 ++ [AgentEvent.statusSynth]
    ++ synthOut.map AgentEvent.chunk
    ++ [AgentEvent.metadataEv (L.1.map ToolResult.tool) L.1.length]
    ++ (if sources = [] then [] else [AgentEvent.sourcesEv sources])

end AgentM

/-! ### Helper lemmas -/

namespace CacheM

theorem lookupStore_dictSet (store : List (String × CacheEntry)) (k : String)
    (v : CacheEntry) : lookupStore (dictSet store k v) k = some v := by
  induction store with
  | nil => simp [dictSet, lookupStore]
  | cons hd tl ih =>
      obtain ⟨k', v'⟩ := hd
      by_cases h : k' = k
      · simp [dictSet, h, lookupStore]
      · simp [dictSet, h, lookupStore, ih]

theorem getResponseCache_store (q : String) (now : ℚ) (st : CacheState) :
    (getResponseCache q now st).2.store = st.store := by
  unfold getResponseCache
  cases h : liveEntry now (lookupStore st.store (cacheKey q)) with
  | none => simp
  | some e => by_cases h' : now - e.timestamp < 24 * 3600 <;> simp [h']

end CacheM

namespace AgentM

/-- The number of tool invocations is the number of accumulated results:
every branch of the loop that calls a tool appends exactly one result. -/
theorem agentLoop_length_le (planner : Nat → Option Plan)
    (exec : String → String → ToolResult) (q : String) :
    ∀ (fuel i : Nat) (acc : List ToolResult),
      ((agentLoop planner exec q fuel i acc).1).length ≤ acc.length + fuel := by
  intro fuel
  induction fuel with
  | zero => intro i acc; simp [agentLoop]
  | succ n ih =>
      intro i acc
      simp only [agentLoop]
      cases planner i with
      | none => simp <;> omega
      | some plan =>
          simp only
          split
          · simp <;> omega
          · cases plan.tool with
            | none => simp <;> omega
            | some t =>
                simp only
                split
                · simp <;> omega
                · split
                  · split
                    · have := ih (i + 1) (acc ++ [exec t (plan.tool_input.getD q)])
                      simp at this ⊢
                      omega
                    · simp <;> omega
                  · have := ih (i + 1) acc
                    simp at this ⊢
                    omega

/-- Whether an event is a `reasoning` event. -/
def isReasoningEv : AgentEvent → Bool
  | AgentEvent.reasoningEv _ => true
  | _ => false

/-- How many reasoning events the first parsed plan gives rise to. -/
def reasoningCountOfPlan : Option Plan → Nat
  | some p => if p.reasoning.isSome then 1 else 0
  | none => 0

theorem agentLoop_no_reasoning_of_pos (planner : Nat → Option Plan)
    (exec : String → String → ToolResult) (q : String) :
    ∀ (fuel i : Nat) (acc : List ToolResult), i ≠ 0 →
      ((agentLoop planner exec q fuel i acc).2).countP isReasoningEv = 0 := by
  intro fuel
  induction fuel with
  | zero => intro i acc h; simp [agentLoop]
  | succ n ih =>
      intro i acc h
      simp only [agentLoop]
      cases planner i with
      | none => simp
      | some plan =>
          have hevR : (match plan.reasoning with
              | some r => if i = 0 then [AgentEvent.reasoningEv r] else []
              | none => []) = ([] : List AgentEvent) := by
            cases plan.reasoning with
            | none => rfl
            | some r => simp [h]
          simp only [hevR]
          split
          · simp
          · cases plan.tool with
            | none => simp
            | some t =>
                simp only
                split
                · simp
                · split
                  · split
                    · simp [List.countP_append, isReasoningEv, ih (i + 1) _ (by omega)]
                    · simp [List.countP_append, isReasoningEv]
                  · simp [List.countP_append, isReasoningEv, ih (i + 1) _ (by omega)]

theorem agentLoop_reasoning_at_zero (planner : Nat → Option Plan)
    (exec : String → String → ToolResult) (q : String)
    (fuel : Nat) (acc : List ToolResult) :
    ((agentLoop planner exec q (fuel + 1) 0 acc).2).countP isReasoningEv =
      reasoningCountOfPlan (planner 0) := by
  simp only [agentLoop]
  cases planner 0 with
  | none => simp [reasoningCountOfPlan]
  | some plan =>
      have hevR : ((match plan.reasoning with
          | some r => if (0 : Nat) = 0 then [AgentEvent.reasoningEv r] else []
          | none => []) : List AgentEvent).countP isReasoningEv =
          reasoningCountOfPlan (some plan) := by
        cases h : plan.reasoning with
        | none => simp [reasoningCountOfPlan, h]
        | some r => simp [reasoningCountOfPlan, isReasoningEv, h]
      simp only
      split
      · simpa using hevR
      · cases plan.tool with
        | none => simpa using hevR
        | some t =>
            simp only
            split
            · simpa using hevR
            · split
              · split
                · simp only [List.countP_append]
                  rw [agentLoop_no_reasoning_of_pos planner exec q fuel 1 _ (by omega)]
                  simpa [List.countP_append, isReasoningEv] using hevR
                · simpa [List.countP_append, isReasoningEv] using hevR
              · simp only [List.countP_append]
                rw [agentLoop_no_reasoning_of_pos planner exec q fuel 1 _ (by omega)]
                simpa [List.countP_append, isReasoningEv] using hevR

end AgentM

/-! ### Claim theorems -/

/-- **C1** (counterexample). With `vectorWeight = 0.5`, vector list
`[(c1, 0.9), (c2, 0.2)]` and keyword list `[(c2, 0.8)]`, the fused output
is *not* `[(c2, 0.5), (c1, 0.45)]` as the claim computes: the code min-max
normalizes each list before weighting, which maps 0.9 ↦ 1.0, 0.2 ↦ 0.0 and
the singleton 0.8 ↦ 0.0. -/
theorem C1_scenarioB_counterexample :
    ¬ (Retriever.combineResults
        [(⟨"c1", []⟩, 9/10), (⟨"c2", []⟩, 2/10)] [(⟨"c2", []⟩, 8/10)]
        (1/2) none
      = [(⟨"c2", []⟩, 1/2), (⟨"c1", []⟩, 9/20)]) := by
  with_unfolding_all decide

/-- **C1** (amended). On the same input the fused output places `c1` first
with combined score 0.5 (normalized vector score 1.0 times weight 0.5) and
`c2` second with score 0.0 (both of its normalized scores are 0.0). -/
theorem C1_scenarioB_amended :
    Retriever.combineResults
        [(⟨"c1", []⟩, 9/10), (⟨"c2", []⟩, 2/10)] [(⟨"c2", []⟩, 8/10)]
        (1/2) none
      = [(⟨"c1", []⟩, 1/2), (⟨"c2", []⟩, 0)] := by
  with_unfolding_all decide

/-- **C2** (code evaluation at the failing input). When every planning
decision names the unregistered tool `"made_up_tool"` (with
`needs_tool: true`, `is_complete: false`), the loop records *no*
`ToolResult` at all and keeps planning for all three iterations (one
step-status event per iteration) instead of recording an immediate failed
result and aborting: `get_tool` returns `None` and the `if tool:` guard
has no else branch, making the `"Tool desconhecida"` failed-result branch
unreachable. -/
theorem C2_unknown_tool_evaluation :
    AgentM.agentLoop
        (fun _ => some ⟨none, some "made_up_tool", some "x", true, false⟩)
        (fun t _ => ⟨true, t, []⟩) "q" AgentM.max_iterations 0 []
      = ([], [AgentM.AgentEvent.toolStatus 1 "made_up_tool",
              AgentM.AgentEvent.toolStatus 2 "made_up_tool",
              AgentM.AgentEvent.toolStatus 3 "made_up_tool"]) := by
  with_unfolding_all decide

/-- **C3**. For every sequence of parsed planner outputs and every tool
behaviour, the loop of `process_stream` (which runs `agentLoop` with
`max_iterations = 3` starting from an empty result list) accumulates at
most `max_iterations` tool results, i.e. performs at most 3 tool
invocations before the final synthesis. -/
theorem C3_iteration_bound (planner : Nat → Option AgentM.Plan)
    (exec : String → String → AgentM.ToolResult) (question : String) :
    ((AgentM.agentLoop planner exec question AgentM.max_iterations 0 []).1).length
      ≤ AgentM.max_iterations := by
  simpa using AgentM.agentLoop_length_le planner exec question AgentM.max_iterations 0 []

/-- **C4**. An answer cached at time `T` is returned (and counted as a hit)
when looked up at `T + 86340` seconds (= 23h59m), and is absent (and
counted as a miss) when looked up at `T + 86460` seconds (= 24h01m): both
the 24-hour timestamp check and diskcache's `expire=86400` agree on the
24-hour boundary. -/
theorem C4_cache_ttl (q : String) (resp : CacheM.CachedResponse)
    (tokens : Nat) (T : ℚ) (st : CacheM.CacheState) :
    ((CacheM.getResponseCache q (T + 86340)
        (CacheM.setResponseCache q resp tokens T st)).1 = some resp ∧
     (CacheM.getResponseCache q (T + 86340)
        (CacheM.setResponseCache q resp tokens T st)).2.stats.response_hits
       = st.stats.response_hits + 1) ∧
    ((CacheM.getResponseCache q (T + 86460)
        (CacheM.setResponseCache q resp tokens T st)).1 = none ∧
     (CacheM.getResponseCache q (T + 86460)
        (CacheM.setResponseCache q resp tokens T st)).2.stats.response_misses
       = st.stats.response_misses + 1) := by
  have hlook : CacheM.lookupStore
      (CacheM.setResponseCache q resp tokens T st).store (CacheM.cacheKey q)
      = some ⟨resp, T, tokens⟩ := by
    simp [CacheM.setResponseCache, CacheM.lookupStore_dictSet]
  constructor
  · have hlive : CacheM.liveEntry (T + 86340)
        (CacheM.lookupStore (CacheM.setResponseCache q resp tokens T st).store
          (CacheM.cacheKey q)) = some ⟨resp, T, tokens⟩ := by
      rw [hlook]
      simp only [CacheM.liveEntry]
      rw [if_pos (by linarith)]
    constructor <;>
    · simp only [CacheM.getResponseCache, hlive]
      rw [if_pos (by push_cast; linarith)]
      try simp [CacheM.setResponseCache]
  · have hlive : CacheM.liveEntry (T + 86460)
        (CacheM.lookupStore (CacheM.setResponseCache q resp tokens T st).store
          (CacheM.cacheKey q)) = none := by
      rw [hlook]
      simp only [CacheM.liveEntry]
      rw [if_neg (by push_cast; linarith)]
    constructor <;>
    · simp only [CacheM.getResponseCache, hlive]
      try simp [CacheM.setResponseCache]

/-- **C10**. The number of `reasoning` events `process_stream` emits is
exactly determined by the first iteration's parsed plan: one if it carries
a `reasoning` key, zero otherwise (in particular zero when iteration 0's
generation raised). Later iterations never add a reasoning event, nor does
the synthesis tail. -/
theorem C10_reasoning_only_first_iteration (planner : Nat → Option AgentM.Plan)
    (exec : String → String → AgentM.ToolResult) (synthOut : List String)
    (question : String) :
    (AgentM.processStream planner exec synthOut question).countP
        AgentM.isReasoningEv
      = AgentM.reasoningCountOfPlan (planner 0) := by
  simp only [AgentM.processStream, List.countP_append]
  have hloop :
      ((AgentM.agentLoop planner exec question AgentM.max_iterations 0 []).2).countP
        AgentM.isReasoningEv = AgentM.reasoningCountOfPlan (planner 0) :=
    AgentM.agentLoop_reasoning_at_zero planner exec question 2 []
  have hchunks : (synthOut.map AgentM.AgentEvent.chunk).countP AgentM.isReasoningEv = 0 := by
    induction synthOut with
    | nil => simp
    | cons h t ih => simp [AgentM.isReasoningEv, ih]
  rw [hloop]
  split <;> simp [AgentM.isReasoningEv, hchunks]

/-- Validation of the SHA-256 embedding against the standard `"abc"`
test vector. -/
theorem sha256_abc_test_vector :
    SHA256.hexdigest (SHA256.encode "abc") =
    "ba7816bf8f01cfea414140de5dae2223b00361a396177a9cb410ff61f20015ad" := by
  decide

/-! ### Query-expansion lemmas (C9) -/

namespace Retriever

theorem expandStep_eq (vars : List String) (line : String) :
    expandStep vars line =
      if cleanLine line ≠ "" ∧ 10 < (cleanLine line).length ∧ cleanLine line ∉ vars
      then vars ++ [cleanLine line] else vars := rfl

theorem expandFold_append (lines : List String) :
    ∀ vars : List String, ∃ t, lines.foldl expandStep vars = vars ++ t := by
  induction lines with
  | nil => intro vars; exact ⟨[], by simp⟩
  | cons l ls ih =>
      intro vars
      rcases ih (expandStep vars l) with ⟨t, ht⟩
      rw [List.foldl_cons, expandStep_eq]
      rw [expandStep_eq] at ht
      revert ht
      generalize cleanLine l = c
      intro ht
      by_cases hcond : c ≠ "" ∧ 10 < c.length ∧ c ∉ vars
      · rw [if_pos hcond] at ht ⊢
        exact ⟨c :: t, by rw [ht]; simp⟩
      · rw [if_neg hcond] at ht ⊢
        exact ⟨t, ht⟩

theorem mem_expandFold (lines : List String) :
    ∀ (vars : List String) (v : String), v ∈ lines.foldl expandStep vars →
      v ∈ vars ∨ 10 < v.length := by
  induction lines with
  | nil => intro vars v hv; simp at hv; exact Or.inl hv
  | cons l ls ih =>
      intro vars v hv
      rw [List.foldl_cons, expandStep_eq] at hv
      rcases ih _ v hv with h | h
      · revert h
        generalize cleanLine l = c
        intro h
        by_cases hcond : c ≠ "" ∧ 10 < c.length ∧ c ∉ vars
        · rw [if_pos hcond] at h
          rcases List.mem_append.mp h with h' | h'
          · exact Or.inl h'
          · simp at h'
            subst h'
            exact Or.inr hcond.2.1
        · rw [if_neg hcond] at h
          exact Or.inl h
      · exact Or.inr h

theorem nodup_expandFold (lines : List String) :
    ∀ vars : List String, vars.Nodup → (lines.foldl expandStep vars).Nodup := by
  induction lines with
  | nil => intro vars h; simpa using h
  | cons l ls ih =>
      intro vars h
      rw [List.foldl_cons, expandStep_eq]
      apply ih
      revert h
      generalize cleanLine l = c
      intro h
      by_cases hcond : c ≠ "" ∧ 10 < c.length ∧ c ∉ vars
      · rw [if_pos hcond]
        refine h.append (List.nodup_singleton _) ?_
        intro a ha ha'
        simp at ha'
        subst ha'
        exact hcond.2.2 ha
      · rw [if_neg hcond]
        exact h

end Retriever

/-- **C9**. `query_expansion` always returns the original query first,
returns at most 3 variants in total, every generated variant is at least
10 characters long (the code keeps only lines strictly longer than 10) and
distinct from the query and from each other, and a generation failure
yields exactly `[query]`. -/
theorem C9_query_expansion (query : String) (resp : Option String) :
    (Retriever.queryExpansion query resp).head? = some query ∧
    (Retriever.queryExpansion query resp).length ≤ 3 ∧
    (∀ v ∈ (Retriever.queryExpansion query resp).tail,
        ¬ v.length < 10 ∧ v ≠ query) ∧
    (Retriever.queryExpansion query resp).Nodup ∧
    Retriever.queryExpansion query none = [query] := by
  cases resp with
  | none =>
      refine ⟨rfl, by simp [Retriever.queryExpansion], ?_, ?_, rfl⟩
      · intro v hv
        simp [Retriever.queryExpansion] at hv
      · simp [Retriever.queryExpansion]
  | some r =>
      obtain ⟨t, ht⟩ := Retriever.expandFold_append (r.trim.splitOn "\n") [query]
      have hq : Retriever.queryExpansion query (some r) = query :: t.take 2 := by
        simp only [Retriever.queryExpansion, ht]
        simp
      have hnodup : (query :: t).Nodup := by
        have h0 := Retriever.nodup_expandFold (r.trim.splitOn "\n") [query] (by simp)
        rw [ht] at h0
        simpa using h0
      refine ⟨?_, ?_, ?_, ?_, rfl⟩
      · rw [hq]; rfl
      · rw [hq]
        simp only [List.length_cons, List.length_take]
        omega
      · rw [hq]
        intro v hv
        simp only [List.tail_cons] at hv
        have hvt : v ∈ t := List.take_subset 2 t hv
        have hvF : v ∈ (r.trim.splitOn "\n").foldl Retriever.expandStep [query] := by
          rw [ht]; simp [hvt]
        rcases Retriever.mem_expandFold _ [query] v hvF with h | h
        · simp at h
          subst h
          exact absurd hvt (List.nodup_cons.mp hnodup).1
        · refine ⟨by omega, ?_⟩
          intro he
          subst he
          exact (List.nodup_cons.mp hnodup).1 hvt
      · rw [hq]
        have hsub : List.Sublist (query :: t.take 2) (query :: t) :=
          List.Sublist.cons₂ query (List.take_sublist 2 t)
        exact hnodup.sublist hsub

/-- **C9** (witness): applied to a concrete generation output whose single
line carries the enumeration marker `Variação 1:`, discharging the
membership hypothesis at a concrete kept variant. -/
theorem C9_query_expansion_witness :
    ¬ ("uma variação bem comprida" : String).length < 10 ∧
      "uma variação bem comprida" ≠ "tema" :=
  (C9_query_expansion "tema"
      (some "Variação 1: uma variação bem comprida")).2.2.1
    "uma variação bem comprida" (by with_unfolding_all decide)

/-! ### Cache-key lemmas (C7) -/

theorem containsKey_dictSet {β : Type} (l : List (String × β)) (k : String)
    (v : β) (kk : String) :
    containsKey (dictSet l k v) kk = true → containsKey l kk = true ∨ kk = k := by
  induction l with
  | nil =>
      intro h
      simp [dictSet, containsKey] at h
      exact Or.inr h.symm
  | cons hd tl ih =>
      obtain ⟨k', v'⟩ := hd
      by_cases hk : k' = k
      · subst hk
        intro h
        simp [dictSet, containsKey] at h ⊢
        rcases h with h | h
        · exact Or.inr h.symm
        · exact Or.inl (Or.inr h)
      · intro h
        simp only [dictSet, if_neg hk, containsKey] at h ⊢
        by_cases hkk : k' = kk
        · simp [hkk]
        · rw [if_neg hkk] at h ⊢
          exact ih h

/-- **C7** (counterexample). The questions `"a b"` and `"a  b"` differ
only in whitespace (one extra internal space), yet `lower().strip()`
leaves internal whitespace untouched, so their SHA-256 cache keys differ. -/
theorem C7_internal_whitespace_counterexample :
    CacheM.cacheKey "a b" ≠ CacheM.cacheKey "a  b" := by
  with_unfolding_all decide

/-- **C7** (amended). The cache key is `sha256(question.lower().strip())`,
computed by the same derivation on read and write: questions with equal
lowercased-trimmed forms (differing only in letter case or in
leading/trailing whitespace) share one key, a write under one such form is
read back under any other, and a write only ever adds the derived key —
never the raw question text — to the store. -/
theorem C7_key_normalization (q1 q2 : String)
    (h : CacheM.normalizeQuestion q1 = CacheM.normalizeQuestion q2) :
    CacheM.cacheKey q1 = CacheM.cacheKey q2 ∧
    (∀ (resp : CacheM.CachedResponse) (tokens : Nat) (T : ℚ)
        (st : CacheM.CacheState),
      (CacheM.getResponseCache q2 (T + 1)
        (CacheM.setResponseCache q1 resp tokens T st)).1 = some resp) ∧
    (∀ (resp : CacheM.CachedResponse) (tokens : Nat) (T : ℚ)
        (st : CacheM.CacheState) (kk : String),
      containsKey (CacheM.setResponseCache q1 resp tokens T st).store kk = true →
      containsKey st.store kk = true ∨ kk = CacheM.cacheKey q1) := by
  have hkey : CacheM.cacheKey q1 = CacheM.cacheKey q2 := by
    unfold CacheM.cacheKey
    rw [h]
  refine ⟨hkey, ?_, ?_⟩
  · intro resp tokens T st
    have hlook : CacheM.lookupStore
        (CacheM.setResponseCache q1 resp tokens T st).store (CacheM.cacheKey q2)
        = some ⟨resp, T, tokens⟩ := by
      rw [← hkey]
      simp [CacheM.setResponseCache, CacheM.lookupStore_dictSet]
    have hlive : CacheM.liveEntry (T + 1)
        (CacheM.lookupStore (CacheM.setResponseCache q1 resp tokens T st).store
          (CacheM.cacheKey q2)) = some ⟨resp, T, tokens⟩ := by
      rw [hlook]
      simp only [CacheM.liveEntry]
      rw [if_pos (by linarith)]
    simp only [CacheM.getResponseCache, hlive]
    rw [if_pos (by push_cast; linarith)]
  · intro resp tokens T st kk hkk
    exact containsKey_dictSet st.store (CacheM.cacheKey q1) _ kk
      (by simpa [CacheM.setResponseCache] using hkk)

/-- **C7** (witness): `"Hello World"` and `"  hello world  "` differ only
in case and edge whitespace and share one cache key. -/
theorem C7_key_normalization_witness :
    CacheM.cacheKey "Hello World" = CacheM.cacheKey "  hello world  " :=
  (C7_key_normalization "Hello World" "  hello world  "
    (by with_unfolding_all decide)).1

/-! ### Sortedness lemmas (C6) -/

namespace Retriever

/-- Scores are monotonically non-increasing by position. -/
def SortedDesc {α : Type} (l : List (α × ℚ)) : Prop :=
  l.Pairwise (fun a b => b.2 ≤ a.2)

theorem mem_insertDesc {α : Type} (x y : α × ℚ) (l : List (α × ℚ)) :
    y ∈ insertDesc x l → y = x ∨ y ∈ l := by
  induction l with
  | nil => intro h; simp [insertDesc] at h; exact Or.inl h
  | cons z zs ih =>
      intro h
      by_cases hc : x.2 ≤ z.2
      · rw [insertDesc, if_pos hc] at h
        rcases List.mem_cons.mp h with h' | h'
        · exact Or.inr (List.mem_cons.mpr (Or.inl h'))
        · rcases ih h' with h'' | h''
          · exact Or.inl h''
          · exact Or.inr (List.mem_cons.mpr (Or.inr h''))
      · rw [insertDesc, if_neg hc] at h
        rcases List.mem_cons.mp h with h' | h'
        · exact Or.inl h'
        · exact Or.inr h'

theorem sortedDesc_insertDesc {α : Type} (x : α × ℚ) (l : List (α × ℚ))
    (h : SortedDesc l) : SortedDesc (insertDesc x l) := by
  induction l with
  | nil => simp [insertDesc, SortedDesc]
  | cons z zs ih =>
      rcases List.pairwise_cons.mp h with ⟨hz, hzs⟩
      by_cases hc : x.2 ≤ z.2
      · rw [insertDesc, if_pos hc]
        refine List.pairwise_cons.mpr ⟨?_, ih hzs⟩
        intro w hw
        rcases mem_insertDesc x w zs hw with rfl | hw'
        · exact hc
        · exact hz w hw'
      · rw [insertDesc, if_neg hc]
        refine List.pairwise_cons.mpr ⟨?_, h⟩
        intro w hw
        rcases List.mem_cons.mp hw with rfl | hw'
        · linarith [not_le.mp hc]
        · have := hz w hw'
          have := not_le.mp hc
          linarith

theorem sortedDesc_sortDesc {α : Type} (l : List (α × ℚ)) :
    SortedDesc (sortDesc l) := by
  suffices h : ∀ acc : List (α × ℚ), SortedDesc acc →
      SortedDesc (l.foldl (fun a x => insertDesc x a) acc) from
    h [] (by simp [SortedDesc])
  induction l with
  | nil => intro acc h; simpa using h
  | cons x xs ih => intro acc h; exact ih _ (sortedDesc_insertDesc x acc h)

theorem sortedDesc_take {α : Type} (n : Nat) (l : List (α × ℚ))
    (h : SortedDesc l) : SortedDesc (l.take n) :=
  List.Pairwise.sublist (List.take_sublist n l) h

theorem fallbackScores_le (ds : List Doc) :
    ∀ (i : Nat) (p : Doc × ℚ), p ∈ fallbackScores i ds →
      p.2 ≤ 1 - (i : ℚ) * (1/10) := by
  induction ds with
  | nil => intro i p hp; simp [fallbackScores] at hp
  | cons d t ih =>
      intro i p hp
      rcases List.mem_cons.mp hp with rfl | hp'
      · simp
      · have h1 := ih (i + 1) p hp'
        have h2 : (1 : ℚ) - ((i : ℚ) + 1) * (1/10) ≤ 1 - (i : ℚ) * (1/10) := by
          linarith
        push_cast at h1
        linarith

theorem sortedDesc_fallbackScores (ds : List Doc) :
    ∀ i : Nat, SortedDesc (fallbackScores i ds) := by
  induction ds with
  | nil => intro i; simp [fallbackScores, SortedDesc]
  | cons d t ih =>
      intro i
      refine List.pairwise_cons.mpr ⟨?_, ih (i + 1)⟩
      intro p hp
      have h1 := fallbackScores_le t (i + 1) p hp
      push_cast at h1
      simp only
      linarith

theorem sortedDesc_rerankResults (model : Option (String → Doc → ℚ))
    (q : String) (docs : List Doc) (topK : Nat) :
    SortedDesc (rerankResults model q docs topK) := by
  cases model with
  | none => exact sortedDesc_fallbackScores (docs.take topK) 0
  | some m => exact sortedDesc_take topK _ (sortedDesc_sortDesc _)

theorem sortedDesc_combineResults (vr kr : List (Doc × ℚ)) (vw : ℚ)
    (fm : Option (List (String × String))) :
    SortedDesc (combineResults vr kr vw fm) :=
  sortedDesc_sortDesc _

end Retriever

/-- **C6**. Every `ScoredChunk` list the pipeline hands back to a caller
has monotonically non-increasing scores: the fused output of
`_combine_results`, the truncated `hybrid_search` result, both paths of
`rerank_results` (cross-encoder sort and the decaying fallback), and the
final selection of `query_stream` (reranked or fused-order). -/
theorem C6_scores_non_increasing :
    (∀ (vr kr : List (Doc × ℚ)) (vw : ℚ)
        (fm : Option (List (String × String))),
      Retriever.SortedDesc (Retriever.combineResults vr kr vw fm)) ∧
    (∀ (vs bs : String → Nat → List (Doc × ℚ)) (q : String) (k : Nat)
        (vw : ℚ) (fm : Option (List (String × String))),
      Retriever.SortedDesc (Retriever.hybridSearch vs bs q k vw fm)) ∧
    (∀ (model : Option (String → Doc → ℚ)) (q : String) (docs : List Doc)
        (topK : Nat),
      Retriever.SortedDesc (Retriever.rerankResults model q docs topK)) ∧
    (∀ (model : Option (String → Doc → ℚ)) (q : String)
        (allResults : List (Doc × ℚ)) (k : Nat) (useRerank : Bool),
      Retriever.SortedDesc (RagStream.selectFinal model q allResults k useRerank)) := by
  refine ⟨?_, ?_, ?_, ?_⟩
  · exact Retriever.sortedDesc_combineResults
  · intro vs bs q k vw fm
    exact Retriever.sortedDesc_take k _ (Retriever.sortedDesc_combineResults _ _ _ _)
  · exact Retriever.sortedDesc_rerankResults
  · intro model q allResults k useRerank
    unfold RagStream.selectFinal
    by_cases hc : useRerank = true ∧ k < (RagStream.topResultsOf allResults k).length
    · rw [if_pos hc]
      exact Retriever.sortedDesc_rerankResults _ _ _ _
    · rw [if_neg hc]
      exact Retriever.sortedDesc_take k _
        (Retriever.sortedDesc_take (k * 2) _ (Retriever.sortedDesc_sortDesc _))

/-! ### Zero-result lemmas (C8) -/

namespace Retriever

theorem combineResults_nil_nil (vw : ℚ) (fm : Option (List (String × String))) :
    combineResults [] [] vw fm = [] := by
  cases fm with
  | none => rfl
  | some f =>
      unfold combineResults
      simp only [normalizeScores, List.foldl_nil]
      split <;> rfl

end Retriever

namespace RagStream

def isChunkEv : RagEvent → Bool
  | RagEvent.chunk _ => true
  | _ => false

def isSourcesEv : RagEvent → Bool
  | RagEvent.sourcesEv _ => true
  | _ => false

theorem flatten_of_all_nil {α β : Type} (qs : List α) (f : α → List β)
    (h : ∀ q, f q = []) : (qs.map f).flatten = [] := by
  induction qs with
  | nil => rfl
  | cons a t ih => simp [h a, ih]

theorem topResultsOf_nil (k : Nat) : topResultsOf [] k = [] := by
  unfold topResultsOf
  simp [Retriever.sortDesc]

theorem selectFinal_nil (model : Option (String → Doc → ℚ)) (q : String)
    (k : Nat) (useRerank : Bool) : selectFinal model q [] k useRerank = [] := by
  unfold selectFinal
  rw [topResultsOf_nil]
  simp

/-- Master evaluation of `query_stream` on a cache miss with an empty
retrieval outcome: the event list is the search status, the optional
expansion status, and one terminal "no relevant documents" chunk; the
cache state is the post-lookup state (no write). -/
theorem queryStream_zero (P : RagParams) (enableCache : Bool) (k : Nat)
    (question : String) (useHybrid useRerank useExpansion : Bool) (now : ℚ)
    (st0 : CacheM.CacheState)
    (hv : ∀ q n, P.vsearch q n = []) (hb : ∀ q n, P.bsearch q n = [])
    (hmiss : enableCache = true →
      (CacheM.getResponseCache question now st0).1 = none) :
    queryStream P enableCache k question useHybrid useRerank useExpansion now st0
      = ([RagEvent.statusEv "🔍 Buscando documentos..."]
          ++ (if useExpansion then [RagEvent.statusEv "🔄 Expandindo query..."] else [])
          ++ [RagEvent.chunk noDocsMsg],
         if enableCache then (CacheM.getResponseCache question now st0).2 else st0) := by
  have hsearch : ∀ q : String,
      (if useHybrid then
        Retriever.hybridSearch P.vsearch P.bsearch q (k * 3) (7/10) none
       else P.vsearch q (k * 3)) = [] := by
    intro q
    cases useHybrid
    · simpa using hv q (k * 3)
    · simp only [if_pos]
      unfold Retriever.hybridSearch
      rw [hv, hb, Retriever.combineResults_nil_nil]
      simp
  have hall : (((if useExpansion then
        Retriever.queryExpansion question P.expandResp
      else [question]).map (fun q =>
        if useHybrid then
          Retriever.hybridSearch P.vsearch P.bsearch q (k * 3) (7/10) none
        else P.vsearch q (k * 3))).flatten) = [] :=
    flatten_of_all_nil _ _ hsearch
  cases hec : enableCache with
  | false =>
      unfold queryStream
      simp only [Bool.false_eq_true, if_false, hall, topResultsOf_nil,
        selectFinal_nil, List.length_nil, List.map_nil]
      simp
  | true =>
      have hpair : CacheM.getResponseCache question now st0
          = (none, (CacheM.getResponseCache question now st0).2) := by
        conv_lhs => rw [← Prod.mk.eta (p := CacheM.getResponseCache question now st0)]
        rw [hmiss hec]
      unfold queryStream
      rw [if_pos rfl, hpair]
      simp only [hall, topResultsOf_nil, selectFinal_nil, List.length_nil,
        List.map_nil]
      simp

end RagStream

/-- **C8**. On a cache miss with empty retrieval results (for instance an
empty corpus), `query_stream` ends with exactly one `chunk` event carrying
the fixed "no relevant documents" message, emits no `sources` (and no
`metadata`) event, performs no synthesis, and leaves the response store
unchanged (no cache write). -/
theorem C8_zero_result_stream (P : RagStream.RagParams) (enableCache : Bool)
    (k : Nat) (question : String) (useHybrid useRerank useExpansion : Bool)
    (now : ℚ) (st0 : CacheM.CacheState)
    (hv : ∀ q n, P.vsearch q n = []) (hb : ∀ q n, P.bsearch q n = [])
    (hmiss : enableCache = true →
      (CacheM.getResponseCache question now st0).1 = none) :
    (RagStream.queryStream P enableCache k question useHybrid useRerank
        useExpansion now st0).1
      = [RagStream.RagEvent.statusEv "🔍 Buscando documentos..."]
        ++ (if useExpansion then [RagStream.RagEvent.statusEv "🔄 Expandindo query..."] else [])
        ++ [RagStream.RagEvent.chunk RagStream.noDocsMsg] ∧
    (RagStream.queryStream P enableCache k question useHybrid useRerank
        useExpansion now st0).1.countP RagStream.isChunkEv = 1 ∧
    (RagStream.queryStream P enableCache k question useHybrid useRerank
        useExpansion now st0).1.getLast?
      = some (RagStream.RagEvent.chunk RagStream.noDocsMsg) ∧
    (RagStream.queryStream P enableCache k question useHybrid useRerank
        useExpansion now st0).1.countP RagStream.isSourcesEv = 0 ∧
    (RagStream.queryStream P enableCache k question useHybrid useRerank
        useExpansion now st0).2.store = st0.store := by
  have h := RagStream.queryStream_zero P enableCache k question useHybrid
    useRerank useExpansion now st0 hv hb hmiss
  refine ⟨by rw [h], ?_, ?_, ?_, ?_⟩
  · rw [h]
    cases useExpansion <;> rfl
  · rw [h]
    cases useExpansion <;> rfl
  · rw [h]
    cases useExpansion <;> rfl
  · rw [h]
    cases hec : enableCache with
    | false => rfl
    | true =>
        simp only [if_pos]
        exact CacheM.getResponseCache_store question now st0

/-- **C8** (witness): scenario A — empty corpus, query `"anything"`,
cache enabled but empty — the last event is the fixed no-documents chunk. -/
theorem C8_zero_result_witness :
    (RagStream.queryStream
        ⟨fun _ _ => [], fun _ _ => [], none, none, fun _ => []⟩
        true 5 "anything" true true false 0 ⟨[], ⟨0, 0, 0, 0⟩⟩).1.getLast?
      = some (RagStream.RagEvent.chunk RagStream.noDocsMsg) :=
  (C8_zero_result_stream _ _ _ _ _ _ _ _ _ (fun _ _ => rfl) (fun _ _ => rfl)
    (fun _ => by with_unfolding_all decide)).2.2.1

/-! ### Weight-extreme fusion lemmas (C5) -/

namespace Retriever

/-- Modelled from the spec's phrase "pure vector ranking (after
normalization)": the single-source ranking obtained by min-max normalizing
one result list and sorting it descending. -/
def pureRanking (l : List (Doc × ℚ)) : List (Doc × ℚ) :=
  sortDesc (normalizeScores l)

theorem normalizeScores_fst (l : List (Doc × ℚ)) :
    (normalizeScores l).map Prod.fst = l.map Prod.fst := by
  cases l with
  | nil => rfl
  | cons r rs => simp [normalizeScores]

theorem normalizeScores_fp (l : List (Doc × ℚ)) :
    (normalizeScores l).map (fun p => fingerprint p.1)
      = l.map (fun p => fingerprint p.1) := by
  cases l with
  | nil => rfl
  | cons r rs => simp [normalizeScores]

theorem containsKey_eq_true {β : Type} (l : List (String × β)) (k : String) :
    containsKey l k = true ↔ k ∈ l.map Prod.fst := by
  induction l with
  | nil => simp [containsKey]
  | cons hd tl ih =>
      obtain ⟨k', v'⟩ := hd
      by_cases h : k' = k
      · subst h
        simp [containsKey]
      · rw [show containsKey ((k', v') :: tl) k = containsKey tl k by
            simp [containsKey, h]]
        rw [ih]
        simp only [List.map_cons, List.mem_cons]
        constructor
        · exact Or.inr
        · intro hc
          rcases hc with hc | hc
          · exact absurd hc.symm h
          · exact hc

theorem containsKey_append {β : Type} (l1 l2 : List (String × β)) (k : String) :
    containsKey (l1 ++ l2) k = (containsKey l1 k || containsKey l2 k) := by
  induction l1 with
  | nil => simp [containsKey]
  | cons hd tl ih =>
      obtain ⟨k', v'⟩ := hd
      by_cases h : k' = k
      · simp [containsKey, h]
      · simp only [List.cons_append, containsKey, if_neg h]
        exact ih

theorem dictSet_append {β : Type} (l : List (String × β)) (k : String) (v : β)
    (h : containsKey l k = false) : dictSet l k v = l ++ [(k, v)] := by
  induction l with
  | nil => rfl
  | cons hd tl ih =>
      obtain ⟨k', v'⟩ := hd
      by_cases hk : k' = k
      · rw [containsKey, if_pos hk] at h
        exact absurd h (by simp)
      · rw [containsKey, if_neg hk] at h
        rw [dictSet, if_neg hk, ih h]
        rfl

theorem addScore_zero : ∀ (l : List (String × (Doc × ℚ))) (k : String),
    addScore l k 0 = l := by
  intro l
  induction l with
  | nil => intro k; rfl
  | cons hd tl ih =>
      intro k
      obtain ⟨k', d, s⟩ := hd
      by_cases hk : k' = k
      · rw [addScore, if_pos hk, add_zero]
      · rw [addScore, if_neg hk, ih]

theorem foldl_dictSet_append :
    ∀ (l : List (Doc × ℚ)) (acc : List (String × (Doc × ℚ))),
      (l.map (fun p => fingerprint p.1)).Nodup →
      (∀ p ∈ l, containsKey acc (fingerprint p.1) = false) →
      l.foldl (fun a p => dictSet a (fingerprint p.1) p) acc
        = acc ++ l.map (fun p => (fingerprint p.1, p)) := by
  intro l
  induction l with
  | nil => intro acc _ _; simp
  | cons p ps ih =>
      intro acc hnd hkeys
      rw [List.foldl_cons, dictSet_append _ _ _ (hkeys p (List.mem_cons_self p ps))]
      rw [List.map_cons] at hnd
      rcases List.nodup_cons.mp hnd with ⟨hp, hps⟩
      have hkeys' : ∀ p' ∈ ps,
          containsKey (acc ++ [(fingerprint p.1, p)]) (fingerprint p'.1) = false := by
        intro p' hp'
        rw [containsKey_append, hkeys p' (List.mem_cons_of_mem p hp')]
        have hne : ¬ fingerprint p.1 = fingerprint p'.1 := by
          intro hfp
          apply hp
          rw [hfp]
          exact List.mem_map.mpr ⟨p', hp', rfl⟩
        simp only [Bool.false_or, containsKey]
        rw [if_neg hne]
      rw [ih (acc ++ [(fingerprint p.1, p)]) hps hkeys']
      simp

theorem foldl_kstep_zero :
    ∀ (l : List (Doc × ℚ)) (acc : List (String × (Doc × ℚ))),
      (∀ p ∈ l, containsKey acc (fingerprint p.1) = true) →
      l.foldl (fun a p =>
          if containsKey a (fingerprint p.1) = true then
            addScore a (fingerprint p.1) 0
          else a ++ [(fingerprint p.1, (p.1, 0))]) acc
        = acc := by
  intro l
  induction l with
  | nil => intro acc _; rfl
  | cons p ps ih =>
      intro acc hkeys
      rw [List.foldl_cons, if_pos (hkeys p (List.mem_cons_self p ps)), addScore_zero]
      exact ih acc (fun p' hp' => hkeys p' (List.mem_cons_of_mem p hp'))

theorem foldl_kstep_append :
    ∀ (l : List (Doc × ℚ)) (acc : List (String × (Doc × ℚ))),
      (l.map (fun p => fingerprint p.1)).Nodup →
      (∀ p ∈ l, containsKey acc (fingerprint p.1) = false) →
      l.foldl (fun a p =>
          if containsKey a (fingerprint p.1) = true then
            addScore a (fingerprint p.1) p.2
          else a ++ [(fingerprint p.1, p)]) acc
        = acc ++ l.map (fun p => (fingerprint p.1, p)) := by
  intro l
  induction l with
  | nil => intro acc _ _; simp
  | cons p ps ih =>
      intro acc hnd hkeys
      rw [List.foldl_cons, if_neg (by rw [hkeys p (List.mem_cons_self p ps)]; simp)]
      rw [List.map_cons] at hnd
      rcases List.nodup_cons.mp hnd with ⟨hp, hps⟩
      have hkeys' : ∀ p' ∈ ps,
          containsKey (acc ++ [(fingerprint p.1, p)]) (fingerprint p'.1) = false := by
        intro p' hp'
        rw [containsKey_append, hkeys p' (List.mem_cons_of_mem p hp')]
        have hne : ¬ fingerprint p.1 = fingerprint p'.1 := by
          intro hfp
          apply hp
          rw [hfp]
          exact List.mem_map.mpr ⟨p', hp', rfl⟩
        simp only [Bool.false_or, containsKey]
        rw [if_neg hne]
      rw [ih (acc ++ [(fingerprint p.1, p)]) hps hkeys']
      simp

theorem map_fst_pairfn (l : List (Doc × ℚ)) :
    (l.map (fun p => (fingerprint p.1, p))).map Prod.fst
      = l.map (fun p => fingerprint p.1) := by
  induction l with
  | nil => rfl
  | cons p ps ih => simp only [List.map_cons, ih]

theorem map_snd_pairfn (l : List (Doc × ℚ)) :
    (l.map (fun p => (fingerprint p.1, p))).map Prod.snd = l := by
  induction l with
  | nil => rfl
  | cons p ps ih => simp only [List.map_cons, ih]

theorem combine_vw_one (vr kr : List (Doc × ℚ))
    (h1 : (vr.map (fun p => fingerprint p.1)).Nodup)
    (h2 : ∀ p ∈ kr, fingerprint p.1 ∈ vr.map (fun p => fingerprint p.1)) :
    combineResults vr kr 1 none = pureRanking vr := by
  unfold combineResults pureRanking
  simp only [mul_one, sub_self, mul_zero, Prod.mk.eta]
  rw [foldl_dictSet_append (normalizeScores vr) []
      (by rw [normalizeScores_fp]; exact h1) (fun p _ => rfl)]
  rw [List.nil_append]
  have hkeys : ∀ p ∈ normalizeScores kr,
      containsKey ((normalizeScores vr).map (fun p => (fingerprint p.1, p)))
        (fingerprint p.1) = true := by
    intro p hp
    rw [containsKey_eq_true, map_fst_pairfn, normalizeScores_fp]
    have hmem : fingerprint p.1 ∈ kr.map (fun p => fingerprint p.1) := by
      rw [← normalizeScores_fp]
      exact List.mem_map.mpr ⟨p, hp, rfl⟩
    rcases List.mem_map.mp hmem with ⟨p', hp', hfp⟩
    rw [← hfp]
    exact h2 p' hp'
  rw [foldl_kstep_zero (normalizeScores kr) _ hkeys]
  rw [map_snd_pairfn]

theorem combine_vw_zero (kr : List (Doc × ℚ))
    (h1 : (kr.map (fun p => fingerprint p.1)).Nodup) :
    combineResults [] kr 0 none = pureRanking kr := by
  unfold combineResults pureRanking
  simp only [sub_zero, mul_one, Prod.mk.eta]
  rw [show normalizeScores [] = [] from rfl, List.foldl_nil]
  rw [foldl_kstep_append (normalizeScores kr) []
      (by rw [normalizeScores_fp]; exact h1) (fun p _ => rfl)]
  rw [List.nil_append, map_snd_pairfn]

end Retriever

/-- **C5** (counterexample). With `vectorWeight = 1.0` and a keyword-only
document `b`, fusion does *not* reproduce the pure vector ranking: the
keyword-only document is kept with weighted score 0 instead of being
dropped, so the fused list has an extra entry. -/
theorem C5_weight_extremes_counterexample :
    ¬ (Retriever.combineResults [(⟨"aaa", []⟩, 9/10)] [(⟨"bbb", []⟩, 8/10)]
        1 none
      = Retriever.pureRanking [(⟨"aaa", []⟩, 9/10)]) := by
  with_unfolding_all decide

/-- **C5** (amended). With `vectorWeight = 1.0` the fused output equals
the pure vector ranking after normalization provided every keyword
fingerprint already occurs among the (pairwise distinct) vector
fingerprints — keyword-only documents are otherwise retained with
weighted score 0 rather than dropped. With `vectorWeight = 0.0` and no
vector results, the fused output equals the pure keyword ranking after
normalization (for pairwise distinct keyword fingerprints; when a
fingerprint occurs in both lists the fused entry keeps the vector-side
document object, so exact list equality needs the vector side empty). -/
theorem C5_weight_extremes_amended :
    (∀ vr kr : List (Doc × ℚ),
      (vr.map (fun p => Retriever.fingerprint p.1)).Nodup →
      (∀ p ∈ kr, Retriever.fingerprint p.1
          ∈ vr.map (fun p => Retriever.fingerprint p.1)) →
      Retriever.combineResults vr kr 1 none = Retriever.pureRanking vr) ∧
    (∀ kr : List (Doc × ℚ),
      (kr.map (fun p => Retriever.fingerprint p.1)).Nodup →
      Retriever.combineResults [] kr 0 none = Retriever.pureRanking kr) :=
  ⟨Retriever.combine_vw_one, Retriever.combine_vw_zero⟩

/-- **C5** (witness): both parts applied to concrete lists — the vector
list `[(c1, 0.9), (c2, 0.2)]` with keyword list `[(c2, 0.8)]` for weight
1.0, and the keyword list alone for weight 0.0. -/
theorem C5_weight_extremes_witness :
    Retriever.combineResults [(⟨"c1", []⟩, 9/10), (⟨"c2", []⟩, 2/10)]
        [(⟨"c2", []⟩, 8/10)] 1 none
      = Retriever.pureRanking [(⟨"c1", []⟩, 9/10), (⟨"c2", []⟩, 2/10)] ∧
    Retriever.combineResults [] [(⟨"c2", []⟩, 8/10)] 0 none
      = Retriever.pureRanking [(⟨"c2", []⟩, 8/10)] :=
  ⟨C5_weight_extremes_amended.1 _ _ (by with_unfolding_all decide)
      (by with_unfolding_all decide),
   C5_weight_extremes_amended.2 _ (by with_unfolding_all decide)⟩
